import Mathlib

/-
Formal model of the byggeplasskamera image fetcher (src/fetcher.py).

Strings are modelled as lists of characters (`Str`), byte strings as lists of
naturals, the archive directory as a list of named entries, and wall-clock
times as integers (seconds).  Each definition mirrors one function or code
path of src/fetcher.py; the doc comment of a definition names the source
construct it embeds.
-/

set_option maxHeartbeats 1000000

abbrev Str := List Char

/-- Python string comparison `s < t`: lexicographic by code point. -/
def lexLt : Str → Str → Bool
  | _, [] => false
  | [], _ :: _ => true
  | a :: as, b :: bs => decide (a < b) || (decide (a = b) && lexLt as bs)

/-- Python string comparison `s <= t`. -/
def lexLe (s t : Str) : Bool := lexLt s t || decide (s = t)

/-- Whitespace stripped by Python `str.strip()` (the ASCII whitespace
characters; configuration values contain no exotic Unicode spaces). -/
def pyIsSpace (c : Char) : Bool :=
  decide (c = ' ') || decide (c = '\t') || decide (c = '\n') || decide (c = '\r') ||
  decide (c = '\x0b') || decide (c = '\x0c')

/-- Python `s.strip()`. -/
def pyStrip (s : Str) : Str :=
  ((s.dropWhile pyIsSpace).reverse.dropWhile pyIsSpace).reverse

/-- Worker for `pySplit`; the fuel argument is only a termination measure and
is always at least the length of the remaining string. -/
def pySplitGo (sep : Str) : Nat → Str → Str → List Str
  | _, [], acc => [acc.reverse]
  | 0, s, acc => [acc.reverse ++ s]
  | fuel + 1, c :: rest, acc =>
    if sep.isPrefixOf (c :: rest) then
      acc.reverse :: pySplitGo sep fuel ((c :: rest).drop sep.length) []
    else
      pySplitGo sep fuel rest (c :: acc)

/-- Python `s.split(sep)` for a nonempty separator: non-overlapping matches,
scanned left to right, empty pieces kept. -/
def pySplit (sep s : Str) : List Str := pySplitGo sep s.length s []

/-- Python `ch.isalnum()`.  Exact on code points up to U+00FF (ASCII plus the
Latin-1 Supplement, whose alphanumerics are ª µ º ² ³ ¹ ¼ ½ ¾ and the letters
U+00C0–U+00FF minus × and ÷); code points above U+00FF are treated as
non-alphanumeric, a restriction of the model's character domain. -/
def pyIsAlnum (c : Char) : Bool :=
  c.isAlphanum ||
  decide (c.toNat = 0xAA) || decide (c.toNat = 0xB2) || decide (c.toNat = 0xB3) ||
  decide (c.toNat = 0xB5) || decide (c.toNat = 0xB9) || decide (c.toNat = 0xBA) ||
  (decide (0xBC ≤ c.toNat) && decide (c.toNat ≤ 0xBE)) ||
  (decide (0xC0 ≤ c.toNat) && decide (c.toNat ≤ 0xFF) &&
    !decide (c.toNat = 0xD7) && !decide (c.toNat = 0xF7))

/-- src/fetcher.py `slugify_id`: keep each character with `ch.isalnum()` or in
`("-", "_")`, replace every other character with an underscore. -/
def slugify_id (s : Str) : Str :=
  s.map (fun ch => if pyIsAlnum ch || decide (ch = '-') || decide (ch = '_') then ch else '_')

/-- The environment variables read by `parse_sources` (None models an unset
variable), plus the two storage-path globals it consumes. -/
structure Env where
  SOURCES : Option Str
  IMAGE_URL : Option Str
  SOURCE_ID : Option Str
  STORAGE_DIR_name : Str
  STORAGE_ROOT : Str

/-- One element of the list returned by `parse_sources`: the dict
`{id, url, dir}`. -/
structure Source where
  id : Str
  url : Str
  dir : Str
deriving DecidableEq

/-- Python truthiness of `os.environ.get(...)`: set and nonempty. -/
def envTruthy : Option Str → Bool
  | none => false
  | some s => !s.isEmpty

/-- `[p.strip() for p in raw.replace(";", ",").split(",") if p.strip()]`. -/
def partsOf (raw : Str) : List Str :=
  ((pySplit [','] (raw.map (fun c => if c = ';' then ',' else c))).map pyStrip).filter
    (fun p => !p.isEmpty)

/-- Python `p.split("=", 1)` as the pair (before first '=', after it);
only used when '=' occurs in `p`. -/
def splitFirstEq : Str → Str × Str
  | [] => ([], [])
  | c :: rest =>
    if c = '=' then ([], rest)
    else
      let r := splitFirstEq rest
      (c :: r.1, r.2)

/-- `url.split("//")[-1].split("/")[0]`: the network-location part of the
URL (host, plus port or userinfo when present). -/
def netlocOf (url : Str) : Str :=
  ((pySplit ['/', '/'] url).getLastD []).takeWhile (fun c => !decide (c = '/'))

/-- `f"camera_{k}"`. -/
def camName (k : Nat) : Str := "camera_".data ++ (toString k).data

/-- One iteration of the SOURCES parsing loop in `parse_sources`, producing
the `(id, url)` pair for part `p` when `n` sources were already appended. -/
def parseEntry (p : Str) (n : Nat) : Str × Str :=
  if decide ('=' ∈ p) then
    if (slugify_id (pyStrip (splitFirstEq p).1)).isEmpty then
      (camName (n + 1), pyStrip (splitFirstEq p).2)
    else (slugify_id (pyStrip (splitFirstEq p).1), pyStrip (splitFirstEq p).2)
  else
    if (slugify_id (netlocOf p)).isEmpty then (camName (n + 1), p)
    else (slugify_id (netlocOf p), p)

/-- The SOURCES parsing loop: `n` is `len(sources)` so far. -/
def buildSources : List Str → Nat → List (Str × Str)
  | [], _ => []
  | p :: rest, n => parseEntry p n :: buildSources rest (n + 1)

/-- `STORAGE_ROOT / s["id"] / "images"` (POSIX join of relative parts). -/
def sourceDir (root id : Str) : Str := root ++ '/' :: id ++ "/images".data

/-- `os.environ.get("SOURCE_ID") or STORAGE_DIR.name or "camera"`. -/
def singleSourceId (env : Env) : Str :=
  match env.SOURCE_ID with
  | some s =>
    if !s.isEmpty then s
    else if !env.STORAGE_DIR_name.isEmpty then env.STORAGE_DIR_name else "camera".data
  | none =>
    if !env.STORAGE_DIR_name.isEmpty then env.STORAGE_DIR_name else "camera".data

/-- The `elif IMAGE_URL:` branch of `parse_sources` (single-source form),
including the final `else: return []`. -/
def parseSingle (env : Env) : List Source :=
  match env.IMAGE_URL with
  | some u =>
    if u.isEmpty then []
    else
      [⟨slugify_id (singleSourceId env), u,
        sourceDir env.STORAGE_ROOT (slugify_id (singleSourceId env))⟩]
  | none => []

/-- src/fetcher.py `parse_sources`. -/
def parse_sources (env : Env) : List Source :=
  match env.SOURCES with
  | some raw =>
    if raw.isEmpty then parseSingle env
    else
      (buildSources (partsOf raw) 0).map
        (fun su => ⟨su.1, su.2, sourceDir env.STORAGE_ROOT su.1⟩)
  | none => parseSingle env

/-- What `main` does before its scheduler loop: either the early
`return 2`, or entry into the loop after creating the listed directories. -/
inductive StartupResult where
  | exit (code : Nat)
  | loop (sources : List Source) (dirsCreated : List Str)
deriving DecidableEq

/-- The startup phase of src/fetcher.py `main` (everything before
`while True`). -/
def mainStartup (env : Env) : StartupResult :=
  let sources := parse_sources env
  if sources.isEmpty then .exit 2
  else .loop sources (sources.map (·.dir))

/-- Outcome of one `requests.get` call: a response with status code and body
bytes, or a raised `requests.RequestException` (transport error, timeout). -/
inductive AttemptResult where
  | resp (status : Nat) (content : List Nat)
  | exn
deriving DecidableEq

/-- The success test of `try_fetch`:
`resp.status_code == 200 and resp.content`. -/
def attempt_ok : AttemptResult → Bool
  | .resp s c => decide (s = 200) && !c.isEmpty
  | .exn => false

/-- The `while attempt <= retries` loop of `try_fetch`; the fuel is the
number of loop iterations still permitted (`retries + 1 - attempt`).  The
returned list records, in order, the exponent `k` of every executed
`time.sleep(backoff ** k)` (the code computes `attempt += 1` and then sleeps
`backoff ** attempt`). -/
def try_fetchGo (net : Nat → AttemptResult) : Nat → Nat → Option AttemptResult × List Nat
  | _, 0 => (none, [])
  | attempt, fuel + 1 =>
    if attempt_ok (net attempt) then (some (net attempt), [])
    else
      ((try_fetchGo net (attempt + 1) fuel).1,
        (attempt + 1) :: (try_fetchGo net (attempt + 1) fuel).2)

/-- src/fetcher.py `try_fetch`, with attempt `i` observing `net i`: the
returned response (None on exhaustion) paired with the backoff-sleep
exponent trace. -/
def try_fetch (net : Nat → AttemptResult) (retries : Nat) : Option AttemptResult × List Nat :=
  try_fetchGo net 0 (retries + 1)

/-- Split a name at its last '.', when it has one: `some (before, after)`. -/
def lastDotSplit : Str → Option (Str × Str)
  | [] => none
  | c :: rest =>
    match lastDotSplit rest with
    | some r => some (c :: r.1, r.2)
    | none => if c = '.' then some ([], rest) else none

/-- Python `pathlib.PurePath.suffix`: with `i = name.rfind('.')`, the slice
`name[i:]` when `0 < i < len(name) - 1`, else the empty string. -/
def pySuffix (name : Str) : Str :=
  match lastDotSplit name with
  | some r => if !r.1.isEmpty && !r.2.isEmpty then '.' :: r.2 else []
  | none => []

/-- Python `pathlib.PurePath.with_suffix(suffix)` on a file name: the old
suffix (possibly empty) is cut off and `suffix` appended. -/
def with_suffix (name suffix : Str) : Str :=
  let old := pySuffix name
  if old.isEmpty then name ++ suffix
  else name.take (name.length - old.length) ++ suffix

/-- The temporary path of `save_image`:
`path.with_suffix(path.suffix + ".tmp")`. -/
def tmpPath (path : Str) : Str := with_suffix path (pySuffix path ++ ".tmp".data)

/-- A directory's file contents: name to byte string, none when absent. -/
abbrev FS := Str → Option (List Nat)

/-- Creating or overwriting a file with the given bytes. -/
def fsWrite (fs : FS) (name : Str) (data : List Nat) : FS :=
  fun n => if n = name then some data else fs n

/-- `os.replace`-style rename: `dst` takes the content of `src`, `src`
disappears, every other name is untouched. -/
def fsRename (fs : FS) (src dst : Str) : FS :=
  fun n => if n = src then none else if n = dst then fs src else fs n

/-- Every file-system state observable while `save_image(content, path)`
runs: the temporary file grows from 0 bytes to the full body, then the one
rename installs the final name.  (`f.write` may be broken into arbitrary
partial writes of the temporary file; the final atomic `tmp.replace(path)`
is the single last step.) -/
def save_image_states (fs : FS) (content : List Nat) (path : Str) : List FS :=
  ((List.range (content.length + 1)).map
    (fun k => fsWrite fs (tmpPath path) (content.take k)))
  ++ [fsRename (fsWrite fs (tmpPath path) content) (tmpPath path) path]

/-- src/fetcher.py `save_image`: the file system after the write completes. -/
def save_image (fs : FS) (content : List Nat) (path : Str) : FS :=
  fsRename (fsWrite fs (tmpPath path) content) (tmpPath path) path

/-- What a directory entry is: a regular file with bytes and a modification
time, or a symbolic link to a name in the same directory. -/
inductive Node where
  | file (content : List Nat) (mtime : Int)
  | symlink (target : Str)
deriving DecidableEq

/-- One directory entry. -/
structure Entry where
  name : Str
  node : Node
deriving DecidableEq

/-- Look a name up in a directory listing. -/
def lookupEntry (dir : List Entry) (n : Str) : Option Entry :=
  dir.find? (fun e => decide (e.name = n))

/-- Python `p.is_file()`: true for a regular file, and for a symbolic link
iff it resolves to a regular file (one resolution step; the only links this
program creates point directly at regular files). -/
def is_file (dir : List Entry) (e : Entry) : Bool :=
  match e.node with
  | .file _ _ => true
  | .symlink t =>
    match lookupEntry dir t with
    | some e2 => match e2.node with | .file _ _ => true | .symlink _ => false
    | none => false

/-- The name of the latest pointer. -/
def latestName : Str := "latest".data

/-- The filter of `rotate_storage`:
`p.is_file() and p.name != "latest"`. -/
def eligPred (dir : List Entry) (e : Entry) : Bool :=
  is_file dir e && !decide (e.name = latestName)

/-- The sort order of `sorted(...)` on the paths: by name. -/
def byNameLe (a b : Entry) : Prop := lexLe a.name b.name = true

instance : DecidableRel byNameLe := fun a b => Bool.decEq (lexLe a.name b.name) true

/-- `files = sorted([p for p in storage.iterdir() if p.is_file() and
p.name != "latest"])`. -/
def eligibleSorted (dir : List Entry) : List Entry :=
  List.insertionSort byNameLe (dir.filter (eligPred dir))

/-- The files unlinked by the count pass of `rotate_storage`:
`files[: len(files) - max_files]` when `max_files` is nonzero and exceeded. -/
def countRemoved (dir : List Entry) (max_files : Nat) : List Entry :=
  if !decide (max_files = 0) && decide ((eligibleSorted dir).length > max_files) then
    (eligibleSorted dir).take ((eligibleSorted dir).length - max_files)
  else []

def secondsPerDay : Int := 86400

/-- `cutoff = datetime.utcnow() - timedelta(days=max_age_days)`, with times
as integer seconds. -/
def cutoffOf (now : Int) (max_age_days : Nat) : Int :=
  now - max_age_days * secondsPerDay

/-- The directory as the age pass sees it, after the count pass unlinked its
victims. -/
def afterCount (dir : List Entry) (max_files : Nat) : List Entry :=
  dir.filter (fun e => !decide (e.name ∈ (countRemoved dir max_files).map Entry.name))

/-- `p.stat().st_mtime` during the age pass; `none` models the call raising
(entry already unlinked, or a dangling link), which the code catches and
logs, leaving the entry alone. -/
def statMtime (dir : List Entry) (e : Entry) : Option Int :=
  match lookupEntry dir e.name with
  | none => none
  | some e2 =>
    match e2.node with
    | .file _ m => some m
    | .symlink t =>
      match lookupEntry dir t with
      | some e3 => match e3.node with | .file _ m => some m | .symlink _ => none
      | none => none

/-- The files unlinked by the age pass of `rotate_storage`: it re-walks the
pre-pass `files` list and unlinks those whose stat succeeds with
`mtime < cutoff` (strict). -/
def ageRemoved (dir : List Entry) (max_files max_age_days : Nat) (now : Int) : List Entry :=
  if !decide (max_age_days = 0) then
    (eligibleSorted dir).filter (fun e =>
      match statMtime (afterCount dir max_files) e with
      | some m => decide (m < cutoffOf now max_age_days)
      | none => false)
  else []

/-- The names `rotate_storage` unlinks, in both passes together. -/
def removedNames (dir : List Entry) (max_files max_age_days : Nat) (now : Int) : List Str :=
  (countRemoved dir max_files ++ ageRemoved dir max_files max_age_days now).map Entry.name

/-- An entry survives the sweep iff its name is not unlinked by either
pass. -/
def keepEntry (dir : List Entry) (max_files max_age_days : Nat) (now : Int) (e : Entry) : Bool :=
  !decide (e.name ∈ removedNames dir max_files max_age_days now)

/-- src/fetcher.py `rotate_storage`: the directory after the retention
sweep. -/
def rotate_storage (dir : List Entry) (max_files max_age_days : Nat) (now : Int) : List Entry :=
  dir.filter (keepEntry dir max_files max_age_days now)

/-- The latest-pointer update in `main`: unlink any existing `latest`, then
`latest.symlink_to(dest.name)`. -/
def updateLatest (dir : List Entry) (destName : Str) : List Entry :=
  (dir.filter (fun e => !decide (e.name = latestName))) ++ [⟨latestName, .symlink destName⟩]

/-- The success path of main's per-source body after a fetch succeeded:
save the image under its fresh timestamp name, update `latest`, then run the
retention sweep. -/
def archiveWrite (dir : List Entry) (content : List Nat) (fname : Str) (now : Int)
    (max_files max_age_days : Nat) : List Entry :=
  rotate_storage (updateLatest (dir ++ [⟨fname, .file content now⟩]) fname)
    max_files max_age_days now

/-- What the `latest` entry resolves to: the target name and its bytes, when
`latest` is a link to a regular file of the directory. -/
def resolveLatest (dir : List Entry) : Option (Str × List Nat) :=
  match lookupEntry dir latestName with
  | some e =>
    match e.node with
    | .symlink t =>
      match lookupEntry dir t with
      | some e2 => match e2.node with | .file c _ => some (t, c) | .symlink _ => none
      | none => none
    | .file _ _ => none
  | none => none

/-- The per-source loop of one scheduler cycle in `main`.  The state maps a
source id to that source's archive directory; `body` is the whole per-source
try-block (fetch, save, latest update, retention), and `.error` models an
exception raised at any of those stages, which the `except` clause catches
and logs, leaving every directory as it was. -/
def runCycle (body : Source → List Entry → Except Unit (List Entry)) :
    List Source → (Str → List Entry) → (Str → List Entry)
  | [], st => st
  | s :: rest, st =>
    runCycle body rest
      (match body s (st s.id) with
        | .ok d => fun i => if i = s.id then d else st i
        | .error _ => st)

/-- Sanitization exactly as claim C6 words it: keep ASCII letters, ASCII
digits, dash and underscore, replace every other character with '_'. -/
def asciiSanitize (s : Str) : Str :=
  s.map (fun ch => if ch.isAlphanum || decide (ch = '-') || decide (ch = '_') then ch else '_')

/-- The id the amended claim C6 assigns to entry `p` at 1-based position
`k`: an explicit id is stripped and slugified (Unicode-aware alnum kept); a
bare URL contributes its network-location part, slugified; an empty result
falls back to `camera_<k>`. -/
def derivedId (p : Str) (k : Nat) : Str :=
  if decide ('=' ∈ p) then
    if (slugify_id (pyStrip (splitFirstEq p).1)).isEmpty then camName k
    else slugify_id (pyStrip (splitFirstEq p).1)
  else
    if (slugify_id (netlocOf p)).isEmpty then camName k
    else slugify_id (netlocOf p)

/-- The ids the amended claim C6 assigns to a parts list whose first element
sits at 0-based position `n`. -/
def specIdsFrom : Nat → List Str → List Str
  | _, [] => []
  | n, p :: rest => derivedId p (n + 1) :: specIdsFrom (n + 1) rest

/- Concrete fixtures used by witnesses and counterexamples. -/

/-- An empty file system. -/
def fs0 : FS := fun _ => none

/-- A network that fails every attempt with a transport error. -/
def netFail : Nat → AttemptResult := fun _ => .exn

/-- A network whose second attempt (index 1) succeeds. -/
def netSecond : Nat → AttemptResult :=
  fun i => if i = 1 then .resp 200 [9, 9] else .exn

/-- A timestamp-named archive file with the given hour digit and mtime. -/
def tsEntry (c : Char) (m : Int) : Entry :=
  ⟨"20240101_0".data ++ [c] ++ "0000.jpg".data, .file [c.toNat] m⟩

/-- Ten eligible archive files (hours 0–9) plus a `latest` link to the
newest, for the retention fixtures. -/
def dir10 : List Entry :=
  [tsEntry '3' 3, tsEntry '1' 1, tsEntry '4' 4, tsEntry '0' 0, tsEntry '9' 9,
   tsEntry '2' 2, tsEntry '6' 6, tsEntry '5' 5, tsEntry '8' 8, tsEntry '7' 7,
   ⟨latestName, .symlink (tsEntry '9' 9).name⟩]

/-- A small archive with one old file and a `latest` link to it. -/
def dirSmall : List Entry :=
  [⟨"20240101_010000.jpg".data, .file [1] 100⟩,
   ⟨latestName, .symlink "20240101_010000.jpg".data⟩]

/-- An environment with nothing configured. -/
def envNone : Env :=
  ⟨none, none, none, "images".data, "/data".data⟩

/-- SOURCES holding only delimiters and whitespace, while IMAGE_URL is also
set. -/
def envDelims : Env :=
  ⟨some ", ;,".data, some "http://h/a.jpg".data, none, "images".data, "/data".data⟩

/-- The same SOURCES value as `envDelims` with IMAGE_URL unset. -/
def envDelimsNoUrl : Env :=
  ⟨some ", ;,".data, none, none, "images".data, "/data".data⟩

/-- A SOURCES value with an explicit non-ASCII id. -/
def envCafe : Env :=
  ⟨some "café=http://h/a.jpg".data, none, none, "images".data, "/data".data⟩

/-- A two-entry SOURCES value: one explicit id, one bare URL. -/
def envTwo : Env :=
  ⟨some "cam-1=http://h/a.jpg;http://host.example:8080/b.png".data,
   some "http://ignored/c.jpg".data, none, "images".data, "/data".data⟩

/-- Two registered sources for the fault-isolation fixture. -/
def srcA : Source := ⟨"A".data, "http://a/x.jpg".data, "/data/A/images".data⟩

def srcB : Source := ⟨"B".data, "http://b/x.jpg".data, "/data/B/images".data⟩

/-- A cycle body in which source A's processing raises at some stage and
source B's succeeds, writing one new item. -/
def bodyAB : Source → List Entry → Except Unit (List Entry) :=
  fun s d => if s.id = "A".data then .error () else .ok (d ++ [tsEntry '7' 7])

/-- The initial archives of the fault-isolation fixture. -/
def stAB : Str → List Entry :=
  fun i => if i = "A".data then [tsEntry '1' 1] else if i = "B".data then [tsEntry '2' 2] else []

/- Lemmas about the lexicographic string order. -/

theorem lexLt_irrefl : ∀ s : Str, lexLt s s = false
  | [] => rfl
  | c :: rest => by simp [lexLt, lexLt_irrefl rest]

theorem lexLt_asymm : ∀ {a b : Str}, lexLt a b = true → lexLt b a = true → False
  | [], [], h1, _ => by simp [lexLt] at h1
  | [], _ :: _, _, h2 => by simp [lexLt] at h2
  | _ :: _, [], h1, _ => by simp [lexLt] at h1
  | a :: as, b :: bs, h1, h2 => by
    simp only [lexLt, Bool.or_eq_true, Bool.and_eq_true, decide_eq_true_eq] at h1 h2
    rcases h1 with h1 | ⟨rfl, h1⟩
    · rcases h2 with h2 | ⟨rfl, _⟩
      · exact absurd h2 (not_lt_of_gt h1)
      · exact lt_irrefl _ h1
    · rcases h2 with h2 | ⟨_, h2⟩
      · exact lt_irrefl _ h2
      · exact lexLt_asymm h1 h2

theorem lexLt_trans : ∀ {a b c : Str}, lexLt a b = true → lexLt b c = true → lexLt a c = true
  | [], _, _ :: _, _, _ => rfl
  | [], _ :: _, [], _, h2 => by simp [lexLt] at h2
  | [], [], [], h1, _ => by simp [lexLt] at h1
  | _ :: _, [], _, h1, _ => by simp [lexLt] at h1
  | _ :: _, _ :: _, [], _, h2 => by simp [lexLt] at h2
  | a :: as, b :: bs, c :: cs, h1, h2 => by
    simp only [lexLt, Bool.or_eq_true, Bool.and_eq_true, decide_eq_true_eq] at h1 h2 ⊢
    rcases h1 with h1 | ⟨rfl, h1⟩
    · rcases h2 with h2 | ⟨rfl, _⟩
      · exact Or.inl (lt_trans h1 h2)
      · exact Or.inl h1
    · rcases h2 with h2 | ⟨rfl, h2⟩
      · exact Or.inl h2
      · exact Or.inr ⟨rfl, lexLt_trans h1 h2⟩

theorem lexLt_connex : ∀ a b : Str, lexLt a b = true ∨ a = b ∨ lexLt b a = true
  | [], [] => Or.inr (Or.inl rfl)
  | [], _ :: _ => Or.inl rfl
  | _ :: _, [] => Or.inr (Or.inr rfl)
  | a :: as, b :: bs => by
    rcases lt_trichotomy a b with h | h | h
    · left; simp [lexLt, h]
    · subst h
      rcases lexLt_connex as bs with h2 | h2 | h2
      · left; simp [lexLt, h2]
      · right; left; rw [h2]
      · right; right; simp [lexLt, h2]
    · right; right; simp [lexLt, h]

theorem lexLe_total : ∀ a b : Str, lexLe a b = true ∨ lexLe b a = true := by
  intro a b
  rcases lexLt_connex a b with h | h | h
  · exact Or.inl (by simp [lexLe, h])
  · exact Or.inl (by simp [lexLe, h])
  · exact Or.inr (by simp [lexLe, h])

theorem lexLe_trans : ∀ {a b c : Str}, lexLe a b = true → lexLe b c = true → lexLe a c = true := by
  intro a b c h1 h2
  simp only [lexLe, Bool.or_eq_true, decide_eq_true_eq] at h1 h2 ⊢
  rcases h1 with h1 | rfl
  · rcases h2 with h2 | rfl
    · exact Or.inl (lexLt_trans h1 h2)
    · exact Or.inl h1
  · exact h2

theorem lexLe_lexLt_absurd {a b : Str} (h1 : lexLe a b = true) (h2 : lexLt b a = true) : False := by
  simp only [lexLe, Bool.or_eq_true, decide_eq_true_eq] at h1
  rcases h1 with h1 | rfl
  · exact lexLt_asymm h1 h2
  · simp [lexLt_irrefl] at h2

instance : IsTotal Entry byNameLe := ⟨fun a b => lexLe_total a.name b.name⟩

instance : IsTrans Entry byNameLe := ⟨fun _ _ _ h1 h2 => lexLe_trans h1 h2⟩

/- Lemmas about the pathlib suffix model and save_image. -/

theorem lastDotSplit_eq : ∀ {s : Str} {r : Str × Str},
    lastDotSplit s = some r → s = r.1 ++ '.' :: r.2
  | [], _, h => by simp [lastDotSplit] at h
  | c :: rest, r, h => by
    unfold lastDotSplit at h
    cases hr : lastDotSplit rest with
    | some r2 =>
      rw [hr] at h
      cases h
      simpa using congrArg (c :: ·) (lastDotSplit_eq hr)
    | none =>
      rw [hr] at h
      by_cases hc : c = '.'
      · simp only [hc, if_pos rfl] at h
        cases h
        simp [hc]
      · simp [hc] at h

/-- Cutting the nonempty suffix off a name and re-appending it restores the
name (soundness of the pathlib model's slicing). -/
theorem pySuffix_restore (path : Str) (h : pySuffix path ≠ []) :
    path.take (path.length - (pySuffix path).length) ++ pySuffix path = path := by
  cases hr : lastDotSplit path with
  | none => exact absurd (by unfold pySuffix; rw [hr]) h
  | some r =>
    by_cases hb : (!r.1.isEmpty && !r.2.isEmpty) = true
    · have hs : pySuffix path = '.' :: r.2 := by unfold pySuffix; rw [hr]; simp [hb]
      have hpath := lastDotSplit_eq hr
      rw [hs]
      have hlen : path.length - ('.' :: r.2).length = r.1.length := by
        rw [hpath]; simp
      rw [hlen]
      conv_lhs => rw [hpath]
      rw [List.take_left, hpath]
    · exact absurd (by unfold pySuffix; rw [hr]; simp [hb]) h

/-- The temporary sibling path of `save_image` is always the final name with
".tmp" appended, whatever the final name's suffix is. -/
theorem tmpPath_eq (path : Str) : tmpPath path = path ++ ".tmp".data := by
  unfold tmpPath with_suffix
  by_cases h : (pySuffix path).isEmpty = true
  · rw [if_pos h]
    rw [List.isEmpty_iff] at h
    rw [h]
    rfl
  · rw [if_neg h]
    rw [List.isEmpty_iff] at h
    rw [← List.append_assoc, pySuffix_restore path h]

theorem tmpPath_ne (path : Str) : path ≠ tmpPath path := by
  intro h
  have := congrArg List.length h
  rw [tmpPath_eq] at this
  simp at this

/- Lemmas about directory lookups and the retention sweep. -/

theorem lookup_spec {l : List Entry} {n : Str} {e : Entry}
    (h : lookupEntry l n = some e) : e ∈ l ∧ e.name = n := by
  refine ⟨List.mem_of_find?_eq_some h, ?_⟩
  have := List.find?_some h
  simpa using this

theorem lookup_of_nodup {l : List Entry} {e : Entry}
    (hn : (l.map Entry.name).Nodup) (he : e ∈ l) : lookupEntry l e.name = some e := by
  induction l with
  | nil => cases he
  | cons a t ih =>
    rw [List.map_cons, List.nodup_cons] at hn
    rcases List.mem_cons.mp he with rfl | he2
    · exact List.find?_cons_of_pos _ (by simp)
    · have hne : ¬((fun x : Entry => decide (x.name = e.name)) a = true) := by
        simp only [decide_eq_true_eq]
        intro heq
        exact hn.1 (heq ▸ List.mem_map_of_mem Entry.name he2)
      have hstep : List.find? (fun x : Entry => decide (x.name = e.name)) (a :: t) =
          List.find? (fun x : Entry => decide (x.name = e.name)) t :=
        List.find?_cons_of_neg _ hne
      unfold lookupEntry at ih ⊢
      rw [hstep]
      exact ih hn.2 he2

theorem unique_by_name {l : List Entry} {e1 e2 : Entry}
    (hn : (l.map Entry.name).Nodup) (h1 : e1 ∈ l) (h2 : e2 ∈ l)
    (he : e1.name = e2.name) : e1 = e2 := by
  have q1 := lookup_of_nodup hn h1
  have q2 := lookup_of_nodup hn h2
  rw [he] at q1
  rw [q1] at q2
  exact Option.some_inj.mp q2

theorem filter_length_mono {α : Type} {p q : α → Bool} {l : List α}
    (h : ∀ e ∈ l, p e = true → q e = true) :
    (l.filter p).length ≤ (l.filter q).length := by
  induction l with
  | nil => simp
  | cons a t ih =>
    have ht := fun e he => h e (List.mem_cons_of_mem a he)
    by_cases hp : p a = true
    · rw [List.filter_cons_of_pos hp, List.filter_cons_of_pos (h a (List.mem_cons_self a t) hp)]
      simpa using ih ht
    · rw [List.filter_cons_of_neg (by simpa using hp)]
      by_cases hq : q a = true
      · rw [List.filter_cons_of_pos hq]
        exact le_trans (ih ht) (by simp)
      · rw [List.filter_cons_of_neg (by simpa using hq)]
        exact ih ht

theorem mem_eligibleSorted {dir : List Entry} {e : Entry} :
    e ∈ eligibleSorted dir ↔ e ∈ dir ∧ eligPred dir e = true := by
  unfold eligibleSorted
  rw [(List.perm_insertionSort byNameLe _).mem_iff, List.mem_filter]

theorem eligibleSorted_sorted (dir : List Entry) : List.Sorted byNameLe (eligibleSorted dir) :=
  List.sorted_insertionSort byNameLe _

theorem eligibleSorted_names_nodup {dir : List Entry}
    (hn : (dir.map Entry.name).Nodup) : ((eligibleSorted dir).map Entry.name).Nodup := by
  have hperm : ((eligibleSorted dir).map Entry.name).Perm
      ((dir.filter (eligPred dir)).map Entry.name) :=
    (List.perm_insertionSort byNameLe _).map Entry.name
  have hsub := List.Sublist.map Entry.name (List.filter_sublist (p := eligPred dir) dir)
  exact hperm.symm.nodup (List.Nodup.sublist hsub hn)

theorem eligibleSorted_length (dir : List Entry) :
    (eligibleSorted dir).length = (dir.filter (eligPred dir)).length :=
  (List.perm_insertionSort byNameLe _).length_eq

theorem countRemoved_subset {dir : List Entry} {mf : Nat} {e : Entry}
    (h : e ∈ countRemoved dir mf) : e ∈ eligibleSorted dir := by
  unfold countRemoved at h
  split at h
  · exact List.take_subset _ _ h
  · cases h

theorem ageRemoved_subset {dir : List Entry} {mf mad : Nat} {now : Int} {e : Entry}
    (h : e ∈ ageRemoved dir mf mad now) : e ∈ eligibleSorted dir := by
  unfold ageRemoved at h
  split at h
  · exact List.mem_of_mem_filter h
  · cases h

theorem removedNames_elig {dir : List Entry} {mf mad : Nat} {now : Int} {n : Str}
    (h : n ∈ removedNames dir mf mad now) : ∃ e ∈ eligibleSorted dir, e.name = n := by
  unfold removedNames at h
  rw [List.map_append] at h
  rcases List.mem_append.mp h with h | h
  · obtain ⟨e, he, hname⟩ := List.mem_map.mp h
    exact ⟨e, countRemoved_subset he, hname⟩
  · obtain ⟨e, he, hname⟩ := List.mem_map.mp h
    exact ⟨e, ageRemoved_subset he, hname⟩

theorem elig_name_ne_latest {dir : List Entry} {e : Entry}
    (h : e ∈ eligibleSorted dir) : e.name ≠ latestName := by
  have h2 := (mem_eligibleSorted.mp h).2
  unfold eligPred at h2
  simp only [Bool.and_eq_true, Bool.not_eq_true', decide_eq_false_iff_not] at h2
  exact h2.2

theorem latest_not_removed (dir : List Entry) (mf mad : Nat) (now : Int) :
    latestName ∉ removedNames dir mf mad now := by
  intro h
  obtain ⟨e, he, hname⟩ := removedNames_elig h
  exact elig_name_ne_latest he hname

theorem mem_rotate {dir : List Entry} {mf mad : Nat} {now : Int} {e : Entry} :
    e ∈ rotate_storage dir mf mad now ↔
      e ∈ dir ∧ e.name ∉ removedNames dir mf mad now := by
  unfold rotate_storage keepEntry
  rw [List.mem_filter]
  simp

theorem is_file_mono {l sub : List Entry} {e : Entry}
    (hn : (l.map Entry.name).Nodup) (hsub : ∀ x ∈ sub, x ∈ l)
    (h : is_file sub e = true) : is_file l e = true := by
  obtain ⟨nm, nd⟩ := e
  cases nd with
  | file c m => rfl
  | symlink t =>
    unfold is_file at h ⊢
    dsimp only at h ⊢
    cases hl : lookupEntry sub t with
    | none => rw [hl] at h; cases h
    | some e2 =>
      rw [hl] at h
      obtain ⟨hmem, hname⟩ := lookup_spec hl
      have hLook : lookupEntry l t = some e2 := hname ▸ lookup_of_nodup hn (hsub e2 hmem)
      rw [hLook]
      exact h

theorem eligPred_mono {l sub : List Entry} {e : Entry}
    (hn : (l.map Entry.name).Nodup) (hsub : ∀ x ∈ sub, x ∈ l)
    (h : eligPred sub e = true) : eligPred l e = true := by
  unfold eligPred at h ⊢
  rw [Bool.and_eq_true] at h ⊢
  exact ⟨is_file_mono hn hsub h.1, h.2⟩

theorem cutoff_le_now (now : Int) (mad : Nat) : cutoffOf now mad ≤ now := by
  unfold cutoffOf secondsPerDay
  have hpos : (0 : Int) ≤ (mad : Int) * 86400 := by positivity
  omega

theorem pairwise_take_drop {α : Type} {R : α → α → Prop} {l : List α} {k : Nat}
    (h : List.Pairwise R l) {a b : α} (ha : a ∈ l.take k) (hb : b ∈ l.drop k) : R a b := by
  rw [← List.take_append_drop k l] at h
  exact (List.pairwise_append.mp h).2.2 a ha b hb

theorem names_take_drop_ne {l : List Entry} {k : Nat}
    (hn : (l.map Entry.name).Nodup) {a b : Entry}
    (ha : a ∈ l.take k) (hb : b ∈ l.drop k) : a.name ≠ b.name := by
  rw [← List.take_append_drop k l, List.map_append] at hn
  have hd := List.disjoint_of_nodup_append hn
  intro he
  exact hd (List.mem_map_of_mem Entry.name ha) (he ▸ List.mem_map_of_mem Entry.name hb)

/-- The strictly newest eligible entry is never a victim of the count pass:
the count pass removes an ascending-sorted prefix, and the newest name sorts
last. -/
theorem max_not_in_countRemoved {dir : List Entry} {mf : Nat} {e : Entry}
    (hn : ((eligibleSorted dir).map Entry.name).Nodup)
    (hmax : ∀ y ∈ eligibleSorted dir, y.name ≠ e.name → lexLt y.name e.name = true) :
    e ∉ countRemoved dir mf := by
  intro hmem
  unfold countRemoved at hmem
  split at hmem
  case isTrue hcond =>
    rw [Bool.and_eq_true] at hcond
    have hgt : (eligibleSorted dir).length > mf := by
      have := hcond.2; simpa using this
    have hmf : mf ≠ 0 := by
      have := hcond.1; simpa using this
    have hdroplen : ((eligibleSorted dir).drop ((eligibleSorted dir).length - mf)).length = mf := by
      rw [List.length_drop]
      omega
    have hne : (eligibleSorted dir).drop ((eligibleSorted dir).length - mf) ≠ [] := by
      intro hnil
      rw [hnil] at hdroplen
      exact hmf hdroplen.symm
    obtain ⟨y, hy⟩ := List.exists_mem_of_ne_nil _ hne
    have hR : byNameLe e y := pairwise_take_drop (eligibleSorted_sorted dir) hmem hy
    have hynames : e.name ≠ y.name := names_take_drop_ne hn hmem hy
    have hlt : lexLt y.name e.name = true :=
      hmax y (List.drop_subset _ _ hy) (fun hc => hynames hc.symm)
    exact lexLe_lexLt_absurd hR hlt
  case isFalse => cases hmem

/- Lemmas about try_fetch. -/

theorem try_fetchGo_some_iff (net : Nat → AttemptResult) :
    ∀ (fuel a : Nat), (try_fetchGo net a fuel).1 ≠ none ↔
      ∃ i, i < fuel ∧ attempt_ok (net (a + i)) = true := by
  intro fuel
  induction fuel with
  | zero =>
    intro a
    simp [try_fetchGo]
  | succ f ih =>
    intro a
    unfold try_fetchGo
    by_cases h : attempt_ok (net a) = true
    · rw [if_pos h]
      constructor
      · intro _
        exact ⟨0, Nat.succ_pos f, by simpa using h⟩
      · intro _
        simp
    · rw [if_neg h]
      dsimp only
      rw [ih (a + 1)]
      constructor
      · rintro ⟨i, hi, hok⟩
        refine ⟨i + 1, by omega, ?_⟩
        have harr : a + (i + 1) = a + 1 + i := by omega
        rwa [harr]
      · rintro ⟨i, hi, hok⟩
        cases i with
        | zero => exact absurd (by simpa using hok) h
        | succ j =>
          refine ⟨j, by omega, ?_⟩
          have harr : a + 1 + j = a + (j + 1) := by omega
          rwa [harr]

theorem try_fetchGo_ok_of_some (net : Nat → AttemptResult) :
    ∀ (fuel a : Nat) (r : AttemptResult),
      (try_fetchGo net a fuel).1 = some r → attempt_ok r = true := by
  intro fuel
  induction fuel with
  | zero =>
    intro a r h
    cases h
  | succ f ih =>
    intro a r h
    unfold try_fetchGo at h
    by_cases hok : attempt_ok (net a) = true
    · rw [if_pos hok] at h
      cases h
      exact hok
    · rw [if_neg hok] at h
      exact ih (a + 1) r h

/- Lemmas about the scheduler cycle. -/

theorem runCycle_untouched (body : Source → List Entry → Except Unit (List Entry)) :
    ∀ (sources : List Source) (st : Str → List Entry) (i : Str),
      i ∉ sources.map Source.id → runCycle body sources st i = st i := by
  intro sources
  induction sources with
  | nil => intro st i _; rfl
  | cons s rest ih =>
    intro st i hi
    rw [List.map_cons, List.mem_cons] at hi
    push_neg at hi
    unfold runCycle
    rw [ih _ i hi.2]
    cases hb : body s (st s.id) with
    | ok d =>
      dsimp only
      rw [if_neg hi.1]
    | error u => rfl

theorem runCycle_isolated (body : Source → List Entry → Except Unit (List Entry)) :
    ∀ (sources : List Source) (st : Str → List Entry),
      (sources.map Source.id).Nodup → ∀ s ∈ sources,
        runCycle body sources st s.id =
          match body s (st s.id) with
          | .ok d => d
          | .error _ => st s.id := by
  intro sources
  induction sources with
  | nil =>
    intro st _ s hs
    cases hs
  | cons s0 rest ih =>
    intro st hn s hs
    rw [List.map_cons, List.nodup_cons] at hn
    rcases List.mem_cons.mp hs with rfl | hs2
    · unfold runCycle
      rw [runCycle_untouched body rest _ s.id hn.1]
      cases hb : body s (st s.id) with
      | ok d =>
        dsimp only
        rw [if_pos rfl]
      | error u => rfl
    · unfold runCycle
      rw [ih _ hn.2 s hs2]
      have hne : s.id ≠ s0.id := by
        intro heq
        exact hn.1 (heq ▸ List.mem_map_of_mem Source.id hs2)
      cases hb : body s0 (st s0.id) with
      | ok d =>
        dsimp only
        rw [if_neg hne]
      | error u => rfl

/- Lemmas about source parsing. -/

theorem parseEntry_fst (p : Str) (n : Nat) : (parseEntry p n).1 = derivedId p (n + 1) := by
  unfold parseEntry derivedId
  split
  · split <;> rfl
  · split <;> rfl

theorem buildSources_fst : ∀ (parts : List Str) (n : Nat),
    (buildSources parts n).map Prod.fst = specIdsFrom n parts := by
  intro parts
  induction parts with
  | nil => intro n; rfl
  | cons p rest ih =>
    intro n
    unfold buildSources specIdsFrom
    rw [List.map_cons, parseEntry_fst, ih]

/- Idempotence machinery for the retention sweep. -/

theorem rotate_sublist (dir : List Entry) (mf mad : Nat) (now : Int) :
    (rotate_storage dir mf mad now).Sublist dir := by
  unfold rotate_storage
  exact List.filter_sublist dir

theorem rotate_names_nodup {dir : List Entry} {mf mad : Nat} {now : Int}
    (hn : (dir.map Entry.name).Nodup) :
    ((rotate_storage dir mf mad now).map Entry.name).Nodup :=
  List.Nodup.sublist (List.Sublist.map Entry.name (rotate_sublist dir mf mad now)) hn

theorem afterCount_sublist (dir : List Entry) (mf : Nat) :
    (afterCount dir mf).Sublist dir := by
  unfold afterCount
  exact List.filter_sublist dir

theorem afterCount_names_nodup {dir : List Entry} {mf : Nat}
    (hn : (dir.map Entry.name).Nodup) : ((afterCount dir mf).map Entry.name).Nodup :=
  List.Nodup.sublist (List.Sublist.map Entry.name (afterCount_sublist dir mf)) hn

theorem rotate_mem_afterCount {dir : List Entry} {mf mad : Nat} {now : Int} {e : Entry}
    (he : e ∈ rotate_storage dir mf mad now) : e ∈ afterCount dir mf := by
  obtain ⟨hd, hnr⟩ := mem_rotate.mp he
  unfold afterCount
  rw [List.mem_filter]
  refine ⟨hd, ?_⟩
  simp only [Bool.not_eq_true', decide_eq_false_iff_not]
  intro hc
  apply hnr
  unfold removedNames
  rw [List.map_append]
  exact List.mem_append.mpr (Or.inl hc)

/-- After one sweep, the surviving eligible files number at most
`max_files` (when the count rule is active). -/
theorem rotate_count_le (dir : List Entry) (mf mad : Nat) (now : Int)
    (hn : (dir.map Entry.name).Nodup) (hmf : mf ≠ 0) :
    (eligibleSorted (rotate_storage dir mf mad now)).length ≤ mf := by
  have hsub : ∀ x ∈ rotate_storage dir mf mad now, x ∈ dir :=
    fun x hx => (mem_rotate.mp hx).1
  have h1 := eligibleSorted_length (rotate_storage dir mf mad now)
  have h2 : ((rotate_storage dir mf mad now).filter
        (eligPred (rotate_storage dir mf mad now))).length ≤
      ((rotate_storage dir mf mad now).filter (eligPred dir)).length :=
    filter_length_mono (fun e _ hp => eligPred_mono hn hsub hp)
  have h3 : (rotate_storage dir mf mad now).filter (eligPred dir) =
      dir.filter (fun e => eligPred dir e && keepEntry dir mf mad now e) := by
    unfold rotate_storage
    rw [List.filter_filter]
  have h4 : dir.filter (fun e => eligPred dir e && keepEntry dir mf mad now e) =
      (dir.filter (eligPred dir)).filter (keepEntry dir mf mad now) := by
    rw [List.filter_filter]
    exact List.filter_congr (fun a _ => Bool.and_comm _ _)
  have hperm : ((eligibleSorted dir).filter (keepEntry dir mf mad now)).Perm
      ((dir.filter (eligPred dir)).filter (keepEntry dir mf mad now)) := by
    unfold eligibleSorted
    exact (List.perm_insertionSort byNameLe _).filter _
  have h6 : ((eligibleSorted dir).filter (keepEntry dir mf mad now)).length ≤ mf := by
    by_cases hgt : mf < (eligibleSorted dir).length
    · have hcr : countRemoved dir mf =
          (eligibleSorted dir).take ((eligibleSorted dir).length - mf) := by
        unfold countRemoved
        rw [if_pos]
        rw [Bool.and_eq_true]
        exact ⟨by simpa using hmf, by simpa using hgt⟩
      have htake : ((eligibleSorted dir).take ((eligibleSorted dir).length - mf)).filter
          (keepEntry dir mf mad now) = [] := by
        rw [List.filter_eq_nil]
        intro a ha
        have hmemr : a.name ∈ removedNames dir mf mad now := by
          unfold removedNames
          rw [List.map_append]
          refine List.mem_append.mpr (Or.inl (List.mem_map_of_mem Entry.name ?_))
          rw [hcr]
          exact ha
        simp [keepEntry, hmemr]
      conv_lhs =>
        rw [← List.take_append_drop ((eligibleSorted dir).length - mf) (eligibleSorted dir)]
      rw [List.filter_append, htake, List.nil_append]
      have hd1 : (((eligibleSorted dir).drop ((eligibleSorted dir).length - mf)).filter
            (keepEntry dir mf mad now)).length ≤
          ((eligibleSorted dir).drop ((eligibleSorted dir).length - mf)).length :=
        List.length_filter_le _ _
      have hd2 : ((eligibleSorted dir).drop ((eligibleSorted dir).length - mf)).length = mf := by
        rw [List.length_drop]
        omega
      omega
    · have := List.length_filter_le (keepEntry dir mf mad now) (eligibleSorted dir)
      omega
  have h34 : ((rotate_storage dir mf mad now).filter (eligPred dir)).length =
      ((dir.filter (eligPred dir)).filter (keepEntry dir mf mad now)).length := by
    rw [h3, h4]
  have h5 := hperm.length_eq
  omega

/-- A second sweep with unchanged limits removes nothing by count. -/
theorem rotate_countRemoved_nil (dir : List Entry) (mf mad : Nat) (now : Int)
    (hn : (dir.map Entry.name).Nodup) :
    countRemoved (rotate_storage dir mf mad now) mf = [] := by
  unfold countRemoved
  split
  case isTrue hcond =>
    rw [Bool.and_eq_true] at hcond
    have hmf : mf ≠ 0 := by simpa using hcond.1
    have hgt : mf < (eligibleSorted (rotate_storage dir mf mad now)).length := by
      simpa using hcond.2
    exact absurd hgt (not_lt_of_ge (rotate_count_le dir mf mad now hn hmf))
  case isFalse => rfl

theorem rotate_afterCount_eq (dir : List Entry) (mf mad : Nat) (now : Int)
    (hn : (dir.map Entry.name).Nodup) :
    afterCount (rotate_storage dir mf mad now) mf = rotate_storage dir mf mad now := by
  unfold afterCount
  rw [rotate_countRemoved_nil dir mf mad now hn]
  simp

/-- A successful stat in the swept directory gives the same answer as the
stat the first sweep's age pass performed. -/
theorem statMtime_transfer {dir : List Entry} {mf mad : Nat} {now : Int} {e : Entry} {m : Int}
    (hn : (dir.map Entry.name).Nodup)
    (he : e ∈ rotate_storage dir mf mad now)
    (hst : statMtime (rotate_storage dir mf mad now) e = some m) :
    statMtime (afterCount dir mf) e = some m := by
  unfold statMtime at hst ⊢
  have hlook : lookupEntry (rotate_storage dir mf mad now) e.name = some e :=
    lookup_of_nodup (rotate_names_nodup hn) he
  rw [hlook] at hst
  have heAC : e ∈ afterCount dir mf := rotate_mem_afterCount he
  have hlookAC : lookupEntry (afterCount dir mf) e.name = some e :=
    lookup_of_nodup (afterCount_names_nodup hn) heAC
  rw [hlookAC]
  dsimp only at hst ⊢
  cases hnd : e.node with
  | file c m0 =>
    rw [hnd] at hst
    exact hst
  | symlink t =>
    rw [hnd] at hst
    dsimp only at hst ⊢
    cases hl3 : lookupEntry (rotate_storage dir mf mad now) t with
    | none =>
      rw [hl3] at hst
      cases hst
    | some e3 =>
      rw [hl3] at hst
      obtain ⟨h3mem, h3name⟩ := lookup_spec hl3
      have h3AC : e3 ∈ afterCount dir mf := rotate_mem_afterCount h3mem
      have hl3AC : lookupEntry (afterCount dir mf) t = some e3 :=
        h3name ▸ lookup_of_nodup (afterCount_names_nodup hn) h3AC
      rw [hl3AC]
      exact hst

/-- A second sweep with unchanged limits and the same reference time removes
nothing by age. -/
theorem rotate_ageRemoved_nil (dir : List Entry) (mf mad : Nat) (now : Int)
    (hn : (dir.map Entry.name).Nodup) :
    ageRemoved (rotate_storage dir mf mad now) mf mad now = [] := by
  unfold ageRemoved
  split
  case isTrue hmad =>
    rw [List.filter_eq_nil]
    intro e he
    rw [rotate_afterCount_eq dir mf mad now hn]
    cases hst : statMtime (rotate_storage dir mf mad now) e with
    | none => simp
    | some m =>
      simp only [decide_eq_true_eq]
      intro hm
      obtain ⟨heOut, heElig⟩ := mem_eligibleSorted.mp he
      obtain ⟨heDir, heNR⟩ := mem_rotate.mp heOut
      apply heNR
      unfold removedNames
      rw [List.map_append]
      refine List.mem_append.mpr (Or.inr (List.mem_map_of_mem Entry.name ?_))
      unfold ageRemoved
      rw [if_pos hmad, List.mem_filter]
      refine ⟨mem_eligibleSorted.mpr
        ⟨heDir, eligPred_mono hn (fun x hx => (mem_rotate.mp hx).1) heElig⟩, ?_⟩
      rw [statMtime_transfer hn heOut hst]
      simpa using hm
  case isFalse => rfl

/- Claim theorems. -/

/-- C1: for every successful archive write, the fetched bytes are first
written in full to the temporary sibling path — the final name with ".tmp"
appended — and installed under the final timestamp name by the single
rename; in every observable state of the write sequence the final name is
either absent or carries exactly the full fetched body (never zero-length or
truncated), and after the write it carries the body. -/
theorem claim_C1_atomic_persistence (fs : FS) (content : List Nat) (path : Str)
    (hfresh : fs path = none) :
    tmpPath path = path ++ ".tmp".data
    ∧ (∀ s ∈ save_image_states fs content path, s path = none ∨ s path = some content)
    ∧ save_image fs content path path = some content := by
  refine ⟨tmpPath_eq path, ?_, ?_⟩
  · intro s hs
    unfold save_image_states at hs
    rcases List.mem_append.mp hs with hs | hs
    · obtain ⟨k, _, rfl⟩ := List.mem_map.mp hs
      left
      unfold fsWrite
      rw [if_neg (tmpPath_ne path)]
      exact hfresh
    · rw [List.mem_singleton] at hs
      subst hs
      right
      unfold fsRename fsWrite
      rw [if_neg (tmpPath_ne path), if_pos rfl, if_pos rfl]
  · unfold save_image fsRename fsWrite
    rw [if_neg (tmpPath_ne path), if_pos rfl, if_pos rfl]

theorem claim_C1_atomic_persistence_witness :
    tmpPath "20200102_030405.jpg".data = "20200102_030405.jpg".data ++ ".tmp".data
    ∧ (∀ s ∈ save_image_states fs0 [7, 8] "20200102_030405.jpg".data,
        s "20200102_030405.jpg".data = none ∨ s "20200102_030405.jpg".data = some [7, 8])
    ∧ save_image fs0 [7, 8] "20200102_030405.jpg".data "20200102_030405.jpg".data =
        some [7, 8] :=
  claim_C1_atomic_persistence fs0 [7, 8] "20200102_030405.jpg".data rfl

/-- C3 (code behaviour at the failing input): `try_fetch` executes a backoff
sleep after every failed attempt, including the final one.  With retries = 0
and a network that always raises, a sleep with exponent 1 runs after the
single (final) attempt before Failure is returned; with retries = 3 the
sleep exponents are 1, 2, 3, 4 — the exponent-4 sleep follows the final
attempt, where the claim says no sleep occurs. -/
theorem claim_C3_sleep_after_final_attempt :
    try_fetch netFail 0 = (none, [1]) ∧ try_fetch netFail 3 = (none, [1, 2, 3, 4]) :=
  ⟨rfl, rfl⟩

/-- C5: in each scheduler cycle, each source's resulting archive depends
only on its own body outcome on its own initial archive — an exception
(`.error`) in one source's processing is absorbed in the per-source loop
body, leaves that source's archive unchanged, and every other source is
still processed exactly as if alone; ids outside the registry are never
touched. -/
theorem claim_C5_fault_isolation (body : Source → List Entry → Except Unit (List Entry))
    (sources : List Source) (st : Str → List Entry)
    (hn : (sources.map Source.id).Nodup) :
    (∀ s ∈ sources, runCycle body sources st s.id =
      match body s (st s.id) with
      | .ok d => d
      | .error _ => st s.id)
    ∧ ∀ i : Str, i ∉ sources.map Source.id → runCycle body sources st i = st i :=
  ⟨runCycle_isolated body sources st hn, fun i => runCycle_untouched body sources st i⟩

theorem claim_C5_fault_isolation_witness :
    ((∀ s ∈ [srcA, srcB], runCycle bodyAB [srcA, srcB] stAB s.id =
      match bodyAB s (stAB s.id) with
      | .ok d => d
      | .error _ => stAB s.id)
    ∧ ∀ i : Str, i ∉ [srcA, srcB].map Source.id → runCycle bodyAB [srcA, srcB] stAB i = stAB i)
    ∧ (runCycle bodyAB [srcA, srcB] stAB) "A".data = [tsEntry '1' 1]
    ∧ (runCycle bodyAB [srcA, srcB] stAB) "B".data = [tsEntry '2' 2, tsEntry '7' 7] := by
  refine ⟨claim_C5_fault_isolation bodyAB [srcA, srcB] stAB (by decide), by decide, by decide⟩

/-- C7: `try_fetch` returns a response iff some attempt among the
retries + 1 made observes HTTP 200 with a non-empty body; any returned
response itself satisfies that success test, and when every attempt fails
the result is None. -/
theorem claim_C7_success_iff (net : Nat → AttemptResult) (retries : Nat) :
    ((try_fetch net retries).1 ≠ none ↔ ∃ i, i ≤ retries ∧ attempt_ok (net i) = true)
    ∧ ∀ r, (try_fetch net retries).1 = some r → attempt_ok r = true := by
  constructor
  · unfold try_fetch
    rw [try_fetchGo_some_iff net (retries + 1) 0]
    constructor
    · rintro ⟨i, hi, hok⟩
      exact ⟨i, by omega, by simpa using hok⟩
    · rintro ⟨i, hi, hok⟩
      exact ⟨i, by omega, by simpa using hok⟩
  · intro r h
    exact try_fetchGo_ok_of_some net (retries + 1) 0 r h

theorem claim_C7_success_iff_witness :
    (((try_fetch netSecond 3).1 ≠ none ↔ ∃ i, i ≤ 3 ∧ attempt_ok (netSecond i) = true)
    ∧ ∀ r, (try_fetch netSecond 3).1 = some r → attempt_ok r = true) ∧
    (try_fetch netSecond 3).1 = some (.resp 200 [9, 9]) :=
  ⟨claim_C7_success_iff netSecond 3, by decide⟩

/-- C8: with SOURCES and IMAGE_URL both unset (or empty), parse_sources
returns the empty list and main exits with status 2 before creating any
storage directory and before entering the scheduler loop. -/
theorem claim_C8_empty_config (env : Env)
    (h1 : envTruthy env.SOURCES = false) (h2 : envTruthy env.IMAGE_URL = false) :
    parse_sources env = [] ∧ mainStartup env = .exit 2 := by
  have hsingle : parseSingle env = [] := by
    unfold parseSingle
    cases hu : env.IMAGE_URL with
    | none => rfl
    | some u =>
      rw [hu] at h2
      unfold envTruthy at h2
      have hue : u.isEmpty = true := by simpa using h2
      dsimp only
      rw [if_pos hue]
  have hps : parse_sources env = [] := by
    unfold parse_sources
    cases hs : env.SOURCES with
    | none => exact hsingle
    | some raw =>
      rw [hs] at h1
      unfold envTruthy at h1
      have hre : raw.isEmpty = true := by simpa using h1
      dsimp only
      rw [if_pos hre]
      exact hsingle
  refine ⟨hps, ?_⟩
  unfold mainStartup
  rw [hps]
  rfl

theorem claim_C8_empty_config_witness :
    parse_sources envNone = [] ∧ mainStartup envNone = .exit 2 :=
  claim_C8_empty_config envNone rfl rfl

/-- C9: the retention sweep is idempotent — run a second time on its own
output with the same limits and the same reference time, it unlinks nothing,
and the directory is unchanged. -/
theorem claim_C9_sweep_idempotent (dir : List Entry) (mf mad : Nat) (now : Int)
    (hn : (dir.map Entry.name).Nodup) :
    removedNames (rotate_storage dir mf mad now) mf mad now = []
    ∧ rotate_storage (rotate_storage dir mf mad now) mf mad now =
        rotate_storage dir mf mad now := by
  have hre : removedNames (rotate_storage dir mf mad now) mf mad now = [] := by
    unfold removedNames
    rw [rotate_countRemoved_nil dir mf mad now hn, rotate_ageRemoved_nil dir mf mad now hn]
    rfl
  refine ⟨hre, ?_⟩
  show (rotate_storage dir mf mad now).filter
      (keepEntry (rotate_storage dir mf mad now) mf mad now) = rotate_storage dir mf mad now
  refine List.filter_eq_self.mpr ?_
  intro a _
  simp [keepEntry, hre]

theorem claim_C9_sweep_idempotent_witness :
    removedNames (rotate_storage dir10 2 1 (10 * 86400)) 2 1 (10 * 86400) = []
    ∧ rotate_storage (rotate_storage dir10 2 1 (10 * 86400)) 2 1 (10 * 86400) =
        rotate_storage dir10 2 1 (10 * 86400) :=
  claim_C9_sweep_idempotent dir10 2 1 (10 * 86400) (by decide)

/-- C10: when SOURCES is set and nonempty, the source list is built from
SOURCES alone — two environments sharing the same SOURCES and storage root
parse identically whatever IMAGE_URL or SOURCE_ID hold — and when SOURCES
contains only delimiters and whitespace the result is the empty list, not
the IMAGE_URL fallback. -/
theorem claim_C10_sources_precedence (env : Env) (r : Str)
    (h1 : env.SOURCES = some r) (h2 : r.isEmpty = false) :
    (∀ env2 : Env, env2.SOURCES = some r → env2.STORAGE_ROOT = env.STORAGE_ROOT →
      parse_sources env2 = parse_sources env)
    ∧ (partsOf r = [] → parse_sources env = []) := by
  have hps : ∀ env3 : Env, env3.SOURCES = some r →
      parse_sources env3 = (buildSources (partsOf r) 0).map
        (fun su => ⟨su.1, su.2, sourceDir env3.STORAGE_ROOT su.1⟩) := by
    intro env3 h3
    unfold parse_sources
    rw [h3]
    dsimp only
    rw [if_neg (by simp [h2])]
  constructor
  · intro env2 h2s hroot
    rw [hps env2 h2s, hps env h1, hroot]
  · intro hparts
    rw [hps env h1, hparts]
    rfl

theorem claim_C10_sources_precedence_witness :
    ((∀ env2 : Env, env2.SOURCES = some ", ;,".data →
        env2.STORAGE_ROOT = envDelims.STORAGE_ROOT →
        parse_sources env2 = parse_sources envDelims)
    ∧ (partsOf ", ;,".data = [] → parse_sources envDelims = []))
    ∧ parse_sources envDelims = [] ∧ parse_sources envDelimsNoUrl = [] := by
  have h := claim_C10_sources_precedence envDelims ", ;,".data rfl (by decide)
  exact ⟨h, h.2 (by decide), by decide⟩

/-- C6 counterexample: the claim says sanitization keeps only ASCII
[A-Za-z0-9_-]; on SOURCES "café=http://h/a.jpg" that reading predicts the id
"caf_", but parse_sources produces "café" — Python's isalnum is
Unicode-aware and keeps the non-ASCII letter. -/
theorem claim_C6_counterexample :
    asciiSanitize (pyStrip "café".data) = "caf_".data
    ∧ (parse_sources envCafe).map Source.id = ["café".data]
    ∧ ("café".data : Str) ≠ "caf_".data :=
  ⟨by decide, by decide, by decide⟩

/-- C6 (amended): for every configuration with SOURCES set and nonempty, the
id of the k-th parsed entry (1-based) is: for an `id=url` entry, the id
stripped and sanitized keeping Unicode-alphanumeric characters (Python
str.isalnum), dash and underscore, every other character becoming '_'; for a
bare URL entry, the URL's network-location part (text after the last "//" up
to the next "/"), sanitized the same way; and `camera_<k>` when the
sanitized result is empty. -/
theorem claim_C6_id_derivation (env : Env) (r : Str)
    (h1 : env.SOURCES = some r) (h2 : r.isEmpty = false) :
    (parse_sources env).map Source.id = specIdsFrom 0 (partsOf r) := by
  unfold parse_sources
  rw [h1]
  dsimp only
  rw [if_neg (by simp [h2])]
  rw [List.map_map]
  have hcomp : (Source.id ∘ fun su : Str × Str =>
      (⟨su.1, su.2, sourceDir env.STORAGE_ROOT su.1⟩ : Source)) = Prod.fst := rfl
  rw [hcomp, buildSources_fst]

theorem claim_C6_id_derivation_witness :
    (parse_sources envTwo).map Source.id =
      specIdsFrom 0 (partsOf "cam-1=http://h/a.jpg;http://host.example:8080/b.png".data)
    ∧ (parse_sources envTwo).map Source.id = ["cam-1".data, "host_example_8080".data] :=
  ⟨claim_C6_id_derivation envTwo
      "cam-1=http://h/a.jpg;http://host.example:8080/b.png".data rfl (by decide),
    by decide⟩

/-- C4: when maxFiles > 0 and and the age rule is disabled, a sweep over a
directory with more eligible files than maxFiles removes exactly the oldest
(count − maxFiles) eligible files — the prefix of the ascending
filename-sorted eligible list — keeps the maxFiles newest, and never removes
the `latest` entry. -/
theorem claim_C4_count_retention (dir : List Entry) (mf : Nat) (now : Int)
    (hn : (dir.map Entry.name).Nodup) (hmf : mf ≠ 0)
    (hgt : mf < (eligibleSorted dir).length) :
    countRemoved dir mf = (eligibleSorted dir).take ((eligibleSorted dir).length - mf)
    ∧ List.Sorted byNameLe (eligibleSorted dir)
    ∧ (∀ e ∈ (eligibleSorted dir).take ((eligibleSorted dir).length - mf),
        e ∉ rotate_storage dir mf 0 now)
    ∧ (∀ e ∈ (eligibleSorted dir).drop ((eligibleSorted dir).length - mf),
        e ∈ rotate_storage dir mf 0 now)
    ∧ (∀ e ∈ dir, e.name = latestName → e ∈ rotate_storage dir mf 0 now) := by
  have hage : ageRemoved dir mf 0 now = [] := by
    unfold ageRemoved
    simp
  have hcr : countRemoved dir mf =
      (eligibleSorted dir).take ((eligibleSorted dir).length - mf) := by
    unfold countRemoved
    rw [if_pos]
    rw [Bool.and_eq_true]
    exact ⟨by simpa using hmf, by simpa using hgt⟩
  refine ⟨hcr, eligibleSorted_sorted dir, ?_, ?_, ?_⟩
  · intro e he hin
    apply (mem_rotate.mp hin).2
    unfold removedNames
    rw [List.map_append]
    exact List.mem_append.mpr (Or.inl (List.mem_map_of_mem Entry.name (hcr.symm ▸ he)))
  · intro e he
    refine mem_rotate.mpr ⟨(mem_eligibleSorted.mp (List.drop_subset _ _ he)).1, ?_⟩
    intro hmem
    unfold removedNames at hmem
    rw [List.map_append] at hmem
    rcases List.mem_append.mp hmem with hc | ha
    · obtain ⟨e2, he2, he2name⟩ := List.mem_map.mp hc
      rw [hcr] at he2
      exact names_take_drop_ne (eligibleSorted_names_nodup hn) he2 he he2name
    · rw [hage] at ha
      cases ha
  · exact fun e hed hel =>
      mem_rotate.mpr ⟨hed, fun hc => latest_not_removed dir mf 0 now (hel ▸ hc)⟩

theorem claim_C4_count_retention_witness :
    (countRemoved dir10 3 = (eligibleSorted dir10).take ((eligibleSorted dir10).length - 3)
    ∧ List.Sorted byNameLe (eligibleSorted dir10)
    ∧ (∀ e ∈ (eligibleSorted dir10).take ((eligibleSorted dir10).length - 3),
        e ∉ rotate_storage dir10 3 0 20)
    ∧ (∀ e ∈ (eligibleSorted dir10).drop ((eligibleSorted dir10).length - 3),
        e ∈ rotate_storage dir10 3 0 20)
    ∧ (∀ e ∈ dir10, e.name = latestName → e ∈ rotate_storage dir10 3 0 20))
    ∧ (countRemoved dir10 3).map Entry.name =
        [(tsEntry '0' 0).name, (tsEntry '1' 1).name, (tsEntry '2' 2).name, (tsEntry '3' 3).name,
          (tsEntry '4' 4).name, (tsEntry '5' 5).name, (tsEntry '6' 6).name]
    ∧ (rotate_storage dir10 3 0 20).map Entry.name =
        [(tsEntry '9' 9).name, (tsEntry '8' 8).name, (tsEntry '7' 7).name, latestName] :=
  ⟨claim_C4_count_retention dir10 3 20 (by decide) (by decide) (by decide), by decide, by decide⟩

/-- C2: after every successful archive write for a source — save under a
fresh, strictly newest timestamp name, latest-pointer update, then the
retention sweep — the `latest` entry resolves to exactly the item just
written; moreover, for every directory, `latest` is excluded from the
sweep's eligible-file set (so it is never counted against maxFiles) and an
entry named `latest` is never deleted by either retention rule. -/
theorem claim_C2_latest_resolves_to_new_item (dir : List Entry) (content : List Nat)
    (fname : Str) (now : Int) (mf mad : Nat)
    (hn : (dir.map Entry.name).Nodup)
    (hfresh : fname ∉ dir.map Entry.name)
    (hname : fname ≠ latestName)
    (hnewest : ∀ e ∈ dir, e.name ≠ latestName → lexLt e.name fname = true) :
    resolveLatest (archiveWrite dir content fname now mf mad) = some (fname, content)
    ∧ (∀ d : List Entry, latestName ∉ (eligibleSorted d).map Entry.name)
    ∧ (∀ (d : List Entry) (mf2 mad2 : Nat) (now2 : Int) (e : Entry),
        e ∈ d → e.name = latestName → e ∈ rotate_storage d mf2 mad2 now2) := by
  have hlatest_elig : ∀ d : List Entry, latestName ∉ (eligibleSorted d).map Entry.name := by
    intro d hmem
    obtain ⟨e, he, hename⟩ := List.mem_map.mp hmem
    exact elig_name_ne_latest he hename
  have hlatest_keep : ∀ (d : List Entry) (mf2 mad2 : Nat) (now2 : Int) (e : Entry),
      e ∈ d → e.name = latestName → e ∈ rotate_storage d mf2 mad2 now2 :=
    fun d mf2 mad2 now2 e hed hel =>
      mem_rotate.mpr ⟨hed, fun hc => latest_not_removed d mf2 mad2 now2 (hel ▸ hc)⟩
  refine ⟨?_, hlatest_elig, hlatest_keep⟩
  unfold archiveWrite
  set eN : Entry := ⟨fname, Node.file content now⟩ with heN
  set d2 : List Entry := updateLatest (dir ++ [eN]) fname with hd2
  have hn1 : ((dir ++ [eN]).map Entry.name).Nodup := by
    rw [List.map_append, List.nodup_append]
    refine ⟨hn, List.nodup_singleton _, ?_⟩
    intro a ha hb
    rw [heN] at hb
    rw [List.map_singleton, List.mem_singleton] at hb
    subst hb
    exact hfresh ha
  have hn2 : (d2.map Entry.name).Nodup := by
    rw [hd2]
    unfold updateLatest
    rw [List.map_append, List.nodup_append]
    refine ⟨List.Nodup.sublist (List.Sublist.map Entry.name (List.filter_sublist _)) hn1,
      List.nodup_singleton _, ?_⟩
    intro a ha hb
    rw [List.map_singleton, List.mem_singleton] at hb
    subst hb
    obtain ⟨e, he, hename⟩ := List.mem_map.mp ha
    have hef := List.mem_filter.mp he
    have := hef.2
    simp only [Bool.not_eq_true', decide_eq_false_iff_not] at this
    exact this hename
  have heNew2 : eN ∈ d2 := by
    rw [hd2]
    unfold updateLatest
    refine List.mem_append.mpr (Or.inl (List.mem_filter.mpr ⟨?_, ?_⟩))
    · exact List.mem_append.mpr (Or.inr (List.mem_singleton.mpr rfl))
    · rw [heN]
      simp [hname]
  have heNewElig : eligPred d2 eN = true := by
    unfold eligPred is_file
    rw [heN]
    simp [hname]
  have hmax : ∀ y ∈ eligibleSorted d2, y.name ≠ eN.name → lexLt y.name eN.name = true := by
    intro y hy hyne
    have hynl : y.name ≠ latestName := elig_name_ne_latest hy
    have hy2 := (mem_eligibleSorted.mp hy).1
    rw [hd2] at hy2
    unfold updateLatest at hy2
    rcases List.mem_append.mp hy2 with hy2 | hy2
    · have hy3 := (List.mem_filter.mp hy2).1
      rcases List.mem_append.mp hy3 with hy4 | hy4
      · exact hnewest y hy4 hynl
      · rw [List.mem_singleton] at hy4
        subst hy4
        exact absurd rfl hyne
    · rw [List.mem_singleton] at hy2
      subst hy2
      exact absurd rfl hynl
  have hnotCount : eN ∉ countRemoved d2 mf :=
    max_not_in_countRemoved (eligibleSorted_names_nodup hn2) hmax
  have hAC : eN ∈ afterCount d2 mf := by
    unfold afterCount
    refine List.mem_filter.mpr ⟨heNew2, ?_⟩
    simp only [Bool.not_eq_true', decide_eq_false_iff_not]
    intro hcm
    obtain ⟨e2, he2, he2name⟩ := List.mem_map.mp hcm
    have he2dir : e2 ∈ d2 := (mem_eligibleSorted.mp (countRemoved_subset he2)).1
    have he2eq : e2 = eN := unique_by_name hn2 he2dir heNew2 he2name
    rw [he2eq] at he2
    exact hnotCount he2
  have hstv : statMtime (afterCount d2 mf) eN = some now := by
    unfold statMtime
    rw [lookup_of_nodup (afterCount_names_nodup hn2) hAC]
  have hnotAge : eN ∉ ageRemoved d2 mf mad now := by
    intro hmem
    unfold ageRemoved at hmem
    split at hmem
    case isTrue hmad =>
      rw [List.mem_filter] at hmem
      have hcond := hmem.2
      rw [hstv] at hcond
      simp only [decide_eq_true_eq] at hcond
      exact absurd hcond (not_lt.mpr (cutoff_le_now now mad))
    case isFalse => cases hmem
  have hnR : fname ∉ removedNames d2 mf mad now := by
    intro hmem
    unfold removedNames at hmem
    rw [List.map_append] at hmem
    rcases List.mem_append.mp hmem with hmem | hmem
    · obtain ⟨e2, he2, he2name⟩ := List.mem_map.mp hmem
      have he2dir : e2 ∈ d2 := (mem_eligibleSorted.mp (countRemoved_subset he2)).1
      have he2eq : e2 = eN := unique_by_name hn2 he2dir heNew2 he2name
      rw [he2eq] at he2
      exact hnotCount he2
    · obtain ⟨e2, he2, he2name⟩ := List.mem_map.mp hmem
      have he2dir : e2 ∈ d2 := (mem_eligibleSorted.mp (ageRemoved_subset he2)).1
      have he2eq : e2 = eN := unique_by_name hn2 he2dir heNew2 he2name
      rw [he2eq] at he2
      exact hnotAge he2
  have heL2 : (⟨latestName, Node.symlink fname⟩ : Entry) ∈ d2 := by
    rw [hd2]
    unfold updateLatest
    exact List.mem_append.mpr (Or.inr (List.mem_singleton.mpr rfl))
  have hn3 : ((rotate_storage d2 mf mad now).map Entry.name).Nodup := rotate_names_nodup hn2
  have heL3 : (⟨latestName, Node.symlink fname⟩ : Entry) ∈ rotate_storage d2 mf mad now :=
    hlatest_keep d2 mf mad now _ heL2 rfl
  have heNew3 : eN ∈ rotate_storage d2 mf mad now := mem_rotate.mpr ⟨heNew2, hnR⟩
  have hlkL : lookupEntry (rotate_storage d2 mf mad now) latestName =
      some ⟨latestName, Node.symlink fname⟩ := lookup_of_nodup hn3 heL3
  have hlkN : lookupEntry (rotate_storage d2 mf mad now) fname = some eN :=
    lookup_of_nodup hn3 heNew3
  unfold resolveLatest
  rw [hlkL]
  dsimp only
  rw [hlkN, heN]

theorem claim_C2_latest_resolves_to_new_item_witness :
    resolveLatest (archiveWrite dirSmall [5] "20240101_020000.jpg".data 200 1 0) =
      some ("20240101_020000.jpg".data, [5])
    ∧ (∀ d : List Entry, latestName ∉ (eligibleSorted d).map Entry.name)
    ∧ (∀ (d : List Entry) (mf2 mad2 : Nat) (now2 : Int) (e : Entry),
        e ∈ d → e.name = latestName → e ∈ rotate_storage d mf2 mad2 now2) :=
  claim_C2_latest_resolves_to_new_item dirSmall [5] "20240101_020000.jpg".data 200 1 0
    (by decide) (by decide) (by decide) (by decide)
